import Mathlib

/-!
Verification development for the Cloudinary image fetcher script
(`fetch-cloudinary-images.js`, fuller variant with live-photo/video
classification, which the design document treats as canonical).

The JavaScript is shallowly embedded:
* missing object fields (JS `undefined`) are `Option.none`;
* a JS `TypeError` (calling `.replace` / `.includes` on `undefined`)
  is an `Except.error`;
* `String.prototype.replace` with a string pattern replaces only the
  FIRST occurrence, modelled by `jsReplace`;
* `String.prototype.includes` is modelled by `jsIncludes`;
* the cursor-driven `do ... while (nextCursor)` pagination loop is
  modelled by `fetchLoop`: the provider's successive responses form a
  non-empty sequence (`firstPage` plus `restPages`); the continuation
  cursor of a response is `none` exactly when no further responses
  remain, and each loop iteration is one search request;
* the `albumsByFolder` JS object is an insertion-ordered association
  list (`objInsert` mirrors property assignment);
* `Array.prototype.sort` with comparator
  `(a, b) => b.title.localeCompare(a.title)` is modelled as a stable
  descending sort by title under ordinal (codepoint) string order;
* the top-level `try/catch` driver is modelled by `runScript`, which
  returns the list of externally visible effects (file write, raw
  error output, credential guidance, process exit).
-/

/-- `charsMatch pat s` : does `s` start with the pattern `pat`?
(Character-list core of JS `startsWith`, used by `replace`/`includes`.) -/
def charsMatch : List Char → List Char → Bool
  | [], _ => true
  | _ :: _, [] => false
  | p :: ps, c :: cs => p = c && charsMatch ps cs

/-- Replace the first occurrence of `pat` in `s` by `repl`
(JS `String.prototype.replace` with a string pattern). -/
def firstReplace : List Char → List Char → List Char → List Char
  | [], pat, repl => if charsMatch pat [] then repl else []
  | c :: cs, pat, repl =>
      if charsMatch pat (c :: cs) then repl ++ List.drop pat.length (c :: cs)
      else c :: firstReplace cs pat repl

/-- `hasSub s pat` : does `s` contain `pat` as a contiguous substring?
(JS `String.prototype.includes`.) -/
def hasSub : List Char → List Char → Bool
  | [], pat => charsMatch pat []
  | c :: cs, pat => charsMatch pat (c :: cs) || hasSub cs pat

/-- JS `s.replace(pat, repl)` (first occurrence only). -/
def jsReplace (s pat repl : String) : String :=
  ⟨firstReplace s.data pat.data repl.data⟩

/-- JS `s.includes(pat)`. -/
def jsIncludes (s pat : String) : Bool :=
  hasSub s.data pat.data

/-- A raw Cloudinary asset record as consumed by the script.  Every field
may be absent (JS `undefined`). -/
structure RawAsset where
  secure_url : Option String
  resource_type : Option String
  format : Option String
deriving Repr, DecidableEq

/-- The normalized item produced by `convertToBrowserFormat`.  In the JS,
`isHEICLivePhoto` is only set on the live-photo branch; an absent field is
falsy, so it is modelled as `false`. -/
structure NormalizedItem where
  url : Option String
  originalUrl : Option String
  isVideo : Bool
  isHEICLivePhoto : Bool
deriving Repr, DecidableEq

/-- `isHEICVideo(resource)`: HEIC live photos are video-typed resources in
heic format. -/
def isHEICVideo (r : RawAsset) : Bool :=
  r.format == some "heic" && r.resource_type == some "video"

/-- The video-poster transformation segment spliced by the script. -/
def videoSeg : String := "/video/upload/"

/-- Replacement for `videoSeg`: poster-frame transformation. -/
def videoSegRepl : String := "/video/upload/so_0,f_jpg,q_auto/"

/-- The image delivery segment tested/replaced by the script. -/
def imageSeg : String := "/image/upload/"

/-- Replacement for `imageSeg`: automatic format/quality transformation. -/
def imageSegRepl : String := "/image/upload/f_auto,q_auto/"

/-- `convertToBrowserFormat(resource)`.  Mirrors the JS branch for branch;
when `secure_url` is `undefined`, every branch that calls `.replace` or
`.includes` on it raises a `TypeError`, modelled as `Except.error`. -/
def convertToBrowserFormat (r : RawAsset) : Except String NormalizedItem :=
  if isHEICVideo r then
    .ok ⟨r.secure_url, r.secure_url, true, true⟩
  else if r.resource_type == some "video" then
    match r.secure_url with
    | none => .error "TypeError: Cannot read properties of undefined"
    | some u => .ok ⟨some (jsReplace u videoSeg videoSegRepl), some u, true, false⟩
  else if r.format == some "heic" || r.format == some "heif" then
    match r.secure_url with
    | none => .error "TypeError: Cannot read properties of undefined"
    | some u => .ok ⟨some (jsReplace u imageSeg imageSegRepl), some u, false, false⟩
  else
    match r.secure_url with
    | none => .error "TypeError: Cannot read properties of undefined"
    | some u =>
      if jsIncludes u imageSeg then
        .ok ⟨some (jsReplace u imageSeg imageSegRepl), some u, false, false⟩
      else
        .ok ⟨some u, some u, false, false⟩

/-- `true` iff classification returns normally (does not throw). -/
def classifySucceeds (r : RawAsset) : Bool :=
  match convertToBrowserFormat r with
  | .ok _ => true
  | .error _ => false

/-- Ordinal (codepoint-wise lexicographic) strict comparison of character
lists; model of the string comparison underlying the album sort. -/
def charListLt : List Char → List Char → Bool
  | [], [] => false
  | [], _ :: _ => true
  | _ :: _, [] => false
  | c :: cs, d :: ds => c < d || (c = d && charListLt cs ds)

/-- Ordinal string comparison used to model
`(a, b) => b.title.localeCompare(a.title)` on the script's ASCII titles. -/
def titleLt (a b : String) : Bool :=
  charListLt a.data b.data

/-- JS `folderName.split(/[-_]/)` on a character list: split at every
separator, keeping empty words (so `"" ↦ [[]]`, `"a--b" ↦ [a, ∅, b]`). -/
def splitSeps (sep : Char → Bool) : List Char → List (List Char)
  | [] => [[]]
  | c :: cs =>
    let rest := splitSeps sep cs
    if sep c then [] :: rest
    else
      match rest with
      | [] => [[c]]
      | w :: ws => (c :: w) :: ws

/-- JS `word.charAt(0).toUpperCase() + word.slice(1)` (empty word stays
empty). -/
def capitalizeWord : List Char → String
  | [] => ""
  | c :: cs => ⟨c.toUpper :: cs⟩

/-- `formatFolderName(folderName)`: split on `-`/`_`, capitalize each
word's first character, rejoin with single spaces. -/
def formatFolderName (folderName : String) : String :=
  String.intercalate " "
    ((splitSeps (fun c => c = '-' || c = '_') folderName.data).map capitalizeWord)

/-- An album entry of the output document.  `coverImage` is an `Option`
because `images[coverIndex] || images[0]` is `undefined` on an empty list
(which the non-materialization guard prevents in practice). -/
structure Album where
  title : String
  folder : String
  coverImage : Option NormalizedItem
  images : List NormalizedItem
deriving Repr, DecidableEq

/-- The `albumCovers` constant of the script: preferred cover image index
per album folder. -/
def albumCovers : List (String × Nat) :=
  [("2020, SOL November", 1), ("2021, SOL April", 5), ("2021, SOL November", 2),
   ("2022, SOL April", 2), ("2022, SOL November", 0), ("2023, SOL April", 1),
   ("2023, SOL October", 4), ("2024, SOL April", 6), ("2024, SOL October", 1),
   ("2025, SOL April", 11), ("2025, SOL November", 35)]

/-- One album of the output:
`coverIndex = albumCovers[folderName] || 0` (absent key and value `0`
coincide, exactly as JS `||` behaves on the script's numeric values), and
`coverImage = images[coverIndex] || images[0]` (items are objects, hence
truthy, so the fallback fires exactly when the index is out of bounds). -/
def mkAlbum (cov : List (String × Nat)) (folderName : String)
    (images : List NormalizedItem) : Album :=
  let coverIndex := (cov.lookup folderName).getD 0
  let coverImage :=
    match images.get? coverIndex with
    | some it => some it
    | none => images.get? 0
  ⟨formatFolderName folderName, folderName, coverImage, images⟩

/-- Stable insertion into a descending-by-title list (model of what the
comparator `(a, b) => b.title.localeCompare(a.title)` makes `sort` do). -/
def insertAlbumDesc (a : Album) : List Album → List Album
  | [] => [a]
  | b :: bs =>
    if titleLt a.title b.title then b :: insertAlbumDesc a bs
    else a :: b :: bs

/-- Stable descending-by-title sort of the albums array. -/
def sortAlbumsDesc : List Album → List Album
  | [] => []
  | a :: rest => insertAlbumDesc a (sortAlbumsDesc rest)

/-- One search request's outcome: a page of raw records, or a transport
failure. -/
abbrev SearchPage := Except String (List RawAsset)

/-- Provider data for one folder: its name and the successive responses of
the cursor-chained search requests.  The continuation cursor of a response
is null exactly when no later response remains (`restPages` exhausted). -/
structure FolderFetchData where
  name : String
  firstPage : SearchPage
  restPages : List SearchPage
deriving Repr

/-- Classify every record of one page in order, failing on the first
record whose classification throws. -/
def convertAll : List RawAsset → Except String (List NormalizedItem)
  | [] => .ok []
  | r :: rs =>
    match convertToBrowserFormat r with
    | .error e => .error e
    | .ok item =>
      match convertAll rs with
      | .error e => .error e
      | .ok items => .ok (item :: items)

/-- The `do { ... } while (nextCursor)` pagination loop of the script for
one scope (a folder or the root bucket).  Each iteration is one search
request; the request's records are classified and appended; the loop
repeats while the response carried a continuation cursor (i.e. while
`restPages` is non-empty).  Returns the accumulated items together with
the number of requests issued. -/
def fetchLoop (first : SearchPage) (rest : List SearchPage) :
    Except String (List NormalizedItem × Nat) :=
  match first with
  | .error e => .error e
  | .ok rs =>
    match convertAll rs with
    | .error e => .error e
    | .ok items =>
      match rest with
      | [] => .ok (items, 1)
      | p :: ps =>
        match fetchLoop p ps with
        | .error e => .error e
        | .ok acc => .ok (items ++ acc.1, acc.2 + 1)

/-- The ordered item sequence fetched for one folder. -/
def folderItems (fd : FolderFetchData) : Except String (List NormalizedItem) :=
  match fetchLoop fd.firstPage fd.restPages with
  | .error e => .error e
  | .ok p => .ok p.1

/-- Item sequences of a list of folders, in listing order. -/
def folderItemsAll : List FolderFetchData → Except String (List (List NormalizedItem))
  | [] => .ok []
  | fd :: rest =>
    match folderItems fd with
    | .error e => .error e
    | .ok its =>
      match folderItemsAll rest with
      | .error e => .error e
      | .ok rs => .ok (its :: rs)

/-- The raw records a scope's pagination yields (provider side, before
classification). -/
def collectPages (first : SearchPage) (rest : List SearchPage) :
    Except String (List RawAsset) :=
  match first with
  | .error e => .error e
  | .ok rs =>
    match rest with
    | [] => .ok rs
    | p :: ps =>
      match collectPages p ps with
      | .error e => .error e
      | .ok more => .ok (rs ++ more)

/-- All raw records of one folder's fetch. -/
def folderRawAssets (fd : FolderFetchData) : Except String (List RawAsset) :=
  collectPages fd.firstPage fd.restPages

/-- JS object property assignment `obj[k] = v` on an insertion-ordered
association list. -/
def objInsert : List (String × List NormalizedItem) → String → List NormalizedItem →
    List (String × List NormalizedItem)
  | [], k, v => [(k, v)]
  | (k2, v2) :: rest, k, v =>
    if k2 = k then (k, v) :: rest else (k2, v2) :: objInsert rest k v

/-- The per-folder fetch loop of `fetchAllImages`: accumulates
`albumsByFolder` (only folders with at least one item) and `allImages`
(every folder's items, in listing order). -/
def runFoldersAux : List (String × List NormalizedItem) → List NormalizedItem →
    List FolderFetchData →
    Except String (List (String × List NormalizedItem) × List NormalizedItem)
  | acc, all, [] => .ok (acc, all)
  | acc, all, fd :: rest =>
    match fetchLoop fd.firstPage fd.restPages with
    | .error e => .error e
    | .ok p =>
      runFoldersAux (if p.1.isEmpty then acc else objInsert acc fd.name p.1)
        (all ++ p.1) rest

/-- The full provider interaction of one run: the folder listing result
and the page responses per folder and for the root (unfiled) bucket. -/
structure ProviderData where
  folderList : List FolderFetchData
  rootFirst : SearchPage
  rootRest : List SearchPage

/-- The unfiled (root-level) item sequence of a run. -/
def rootItems (pd : ProviderData) : Except String (List NormalizedItem) :=
  match fetchLoop pd.rootFirst pd.rootRest with
  | .error e => .error e
  | .ok p => .ok p.1

/-- The load-bearing part of the output document (`cloudName` and
`lastUpdated` are I/O glue). -/
structure OutputDoc where
  totalImages : Nat
  carouselImages : List NormalizedItem
  albums : List Album
deriving Repr, DecidableEq

/-- Pure core of `fetchAllImages`: fetch every listed folder, then the
root bucket, assemble albums from the non-empty folders, sort them by
title descending, and build the output document. -/
def fetchAllImagesModel (cov : List (String × Nat)) (pd : ProviderData) :
    Except String OutputDoc :=
  match runFoldersAux [] [] pd.folderList with
  | .error e => .error e
  | .ok fr =>
    match fetchLoop pd.rootFirst pd.rootRest with
    | .error e => .error e
    | .ok rp =>
      let allImages := fr.2 ++ rp.1
      let albums := sortAlbumsDesc (fr.1.map (fun p => mkAlbum cov p.1 p.2))
      .ok ⟨allImages.length, allImages, albums⟩

/-- Externally visible effects of one script run. -/
inductive Effect where
  | writeOutput (doc : OutputDoc)
  | emitRawError (msg : String)
  | emitGuidance
  | exitProcess (code : Nat)
deriving Repr, DecidableEq

/-- The overall run including the folder-listing call (`inp` is the
listing outcome carrying the provider data). -/
def runModel (cov : List (String × Nat)) (inp : Except String ProviderData) :
    Except String OutputDoc :=
  match inp with
  | .error e => .error e
  | .ok pd => fetchAllImagesModel cov pd

/-- The `try/catch` driver: on success write the output file; on any
failure print the raw error, print credential guidance when the message
mentions `api_key`, and exit with status 1 (the file is not written). -/
def runScript (cov : List (String × Nat)) (inp : Except String ProviderData) :
    List Effect :=
  match runModel cov inp with
  | .ok doc => [Effect.writeOutput doc]
  | .error e =>
    [Effect.emitRawError e]
      ++ (if jsIncludes e "api_key" then [Effect.emitGuidance] else [])
      ++ [Effect.exitProcess 1]

/-- A heic-format asset of image kind whose secure URL is not on the
`/image/upload/` delivery path: the claim C3 predicts a `f_auto,q_auto`
transformation in `url`, but the code's `url.replace` finds no
`/image/upload/` segment and returns the URL unchanged. -/
def heicRawUrl : String := "https://res.cloudinary.com/demo/raw/upload/sample.heic"

/-- Three distinct demo items used to instantiate the cover-selection
claim exactly as its examples state it. -/
def demoItems : List NormalizedItem :=
  [⟨some "a", some "a", false, false⟩, ⟨some "b", some "b", false, false⟩,
   ⟨some "c", some "c", false, false⟩]

/-- Adjacent-pairs check that a list of albums is in non-increasing
(descending) ordinal title order. -/
def sortedDescBool : List Album → Bool
  | [] => true
  | [_] => true
  | a :: b :: rest => !(titleLt a.title b.title) && sortedDescBool (b :: rest)

/-- Folder names paired with their fetched item sequences, keeping only
the folders with at least one item (what `albumsByFolder` holds). -/
def pairsOf : List FolderFetchData → List (List NormalizedItem) →
    List (String × List NormalizedItem)
  | [], _ => []
  | _ :: _, [] => []
  | fd :: fds, its :: rest =>
    if its.isEmpty then pairsOf fds rest
    else (fd.name, its) :: pairsOf fds rest

/-! ## Demo provider data for witnesses -/

/-- A raw image asset on the image delivery path. -/
def rawImg (n : String) : RawAsset :=
  ⟨some ("https://h/image/upload/v1/" ++ n), some "image", some "jpg"⟩

/-- Demo folder: a one-page folder holding one image. -/
def demoFd : FolderFetchData := ⟨"2023 April", .ok [rawImg "a.jpg"], []⟩

/-- Demo provider: two non-empty folders, one empty folder, one unfiled
asset, all single-page. -/
def pdDemo : ProviderData :=
  ⟨[demoFd, ⟨"2024 April", .ok [rawImg "b.jpg"], []⟩,
    ⟨"emptyfolder", .ok [], []⟩],
   .ok [rawImg "root.jpg"], []⟩

/-- Items of the demo folder `"2023 April"` after classification. -/
def demoIts : List NormalizedItem :=
  [⟨some "https://h/image/upload/f_auto,q_auto/v1/a.jpg",
    some "https://h/image/upload/v1/a.jpg", false, false⟩]

/-- Per-folder item sequences of `pdDemo`. -/
def demoFits : List (List NormalizedItem) :=
  [demoIts,
   [⟨some "https://h/image/upload/f_auto,q_auto/v1/b.jpg",
     some "https://h/image/upload/v1/b.jpg", false, false⟩],
   []]

/-- Unfiled items of `pdDemo`. -/
def demoRits : List NormalizedItem :=
  [⟨some "https://h/image/upload/f_auto,q_auto/v1/root.jpg",
    some "https://h/image/upload/v1/root.jpg", false, false⟩]

/-- Extract the document of a successful run (dummy on failure). -/
def outOf : Except String OutputDoc → OutputDoc
  | .ok o => o
  | .error _ => ⟨0, [], []⟩

/-- Items of a successful pagination loop (dummy on failure). -/
def loopItemsOf : Except String (List NormalizedItem × Nat) → List NormalizedItem
  | .ok p => p.1
  | .error _ => []

/-- Request count of a successful pagination loop (dummy on failure). -/
def loopCountOf : Except String (List NormalizedItem × Nat) → Nat
  | .ok p => p.2
  | .error _ => 0

/-- Does an effect write the output artifact? -/
def isWriteEffect : Effect → Bool
  | .writeOutput _ => true
  | _ => false


/-! ## String lemmas -/

theorem charsMatch_append (p t : List Char) : charsMatch p (p ++ t) = true := by
  induction p with
  | nil => rfl
  | cons c cs ih => simp [charsMatch, ih]

theorem charsMatch_self (p : List Char) : charsMatch p p = true := by
  have h := charsMatch_append p []
  simpa using h

theorem hasSub_of_match (s pat : List Char) (h : charsMatch pat s = true) :
    hasSub s pat = true := by
  cases s with
  | nil => simpa [hasSub] using h
  | cons c cs => simp [hasSub, h]

theorem hasSub_self (s : List Char) : hasSub s s = true :=
  hasSub_of_match s s (charsMatch_self s)

theorem firstReplace_of_no_occ (s pat repl : List Char) (h : hasSub s pat = false) :
    firstReplace s pat repl = s := by
  induction s with
  | nil =>
    have h0 : charsMatch pat [] = false := by simpa [hasSub] using h
    simp [firstReplace, h0]
  | cons c cs ih =>
    have h1 : charsMatch pat (c :: cs) = false := by
      rcases Bool.or_eq_false_iff.mp (by simpa [hasSub] using h) with ⟨h1, _⟩
      exact h1
    have h2 : hasSub cs pat = false := by
      rcases Bool.or_eq_false_iff.mp (by simpa [hasSub] using h) with ⟨_, h2⟩
      exact h2
    simp [firstReplace, h1, ih h2]

theorem hasSub_firstReplace (s pat repl : List Char) (h : hasSub s pat = true) :
    hasSub (firstReplace s pat repl) repl = true := by
  induction s with
  | nil =>
    have h0 : charsMatch pat [] = true := by simpa [hasSub] using h
    simpa [firstReplace, h0] using hasSub_self repl
  | cons c cs ih =>
    by_cases h1 : charsMatch pat (c :: cs) = true
    · have : firstReplace (c :: cs) pat repl
          = repl ++ List.drop pat.length (c :: cs) := by simp [firstReplace, h1]
      rw [this]
      exact hasSub_of_match _ _ (charsMatch_append repl _)
    · have h1f : charsMatch pat (c :: cs) = false := by
        cases hx : charsMatch pat (c :: cs) with
        | true => exact absurd hx h1
        | false => rfl
      have h2 : hasSub cs pat = true := by
        have hor := (by simpa [hasSub] using h :
          (charsMatch pat (c :: cs) || hasSub cs pat) = true)
        rcases Bool.or_eq_true_iff.mp hor with hx | hx
        · exact absurd hx h1
        · exact hx
      have : firstReplace (c :: cs) pat repl
          = c :: firstReplace cs pat repl := by simp [firstReplace, h1f]
      rw [this]
      simp [hasSub, ih h2]

theorem jsReplace_of_not_included (u pat repl : String)
    (h : jsIncludes u pat = false) : jsReplace u pat repl = u := by
  have := firstReplace_of_no_occ u.data pat.data repl.data (by simpa [jsIncludes] using h)
  simpa [jsReplace] using congrArg String.mk this

theorem jsIncludes_jsReplace (u pat repl : String)
    (h : jsIncludes u pat = true) : jsIncludes (jsReplace u pat repl) repl = true := by
  simpa [jsIncludes, jsReplace] using
    hasSub_firstReplace u.data pat.data repl.data (by simpa [jsIncludes] using h)

/-! ## Claims C1 – C4: the asset classifier -/

/-- C1: a video-kind asset in heic format is classified as a HEIC live
photo: `isVideo = true`, `isHEICLivePhoto = true`, and both `url` and
`originalUrl` are the asset's secure delivery URL with no transformation
inserted. -/
theorem heicVideo_classification (r : RawAsset)
    (hk : r.resource_type = some "video") (hf : r.format = some "heic") :
    convertToBrowserFormat r = .ok ⟨r.secure_url, r.secure_url, true, true⟩ := by
  have h : isHEICVideo r = true := by simp [isHEICVideo, hk, hf]
  simp [convertToBrowserFormat, h]

theorem heicVideo_classification_witness :
    (RawAsset.mk (some "https://h/video/upload/v1/lp.mov") (some "video") (some "heic")).resource_type = some "video"
    ∧ (RawAsset.mk (some "https://h/video/upload/v1/lp.mov") (some "video") (some "heic")).format = some "heic"
    ∧ convertToBrowserFormat (RawAsset.mk (some "https://h/video/upload/v1/lp.mov") (some "video") (some "heic"))
      = .ok ⟨some "https://h/video/upload/v1/lp.mov", some "https://h/video/upload/v1/lp.mov", true, true⟩ :=
  ⟨rfl, rfl, heicVideo_classification _ rfl rfl⟩

/-- C2: a video-kind asset whose format is not heic is classified with
`isVideo = true`, `isHEICLivePhoto = false`, `originalUrl` the unchanged
secure URL, and `url` the secure URL with `so_0,f_jpg,q_auto` spliced
immediately after the first `/video/upload/` segment; when that segment
is absent the URL is returned unmodified. -/
theorem video_classification (r : RawAsset) (u : String)
    (hk : r.resource_type = some "video") (hf : r.format ≠ some "heic")
    (hu : r.secure_url = some u) :
    convertToBrowserFormat r
      = .ok ⟨some (jsReplace u videoSeg videoSegRepl), some u, true, false⟩
    ∧ (jsIncludes u videoSeg = true →
        jsIncludes (jsReplace u videoSeg videoSegRepl) videoSegRepl = true)
    ∧ (jsIncludes u videoSeg = false → jsReplace u videoSeg videoSegRepl = u) := by
  have hv : isHEICVideo r = false := by
    simp [isHEICVideo, hf]
  refine ⟨?_, fun h => jsIncludes_jsReplace u _ _ h,
    fun h => jsReplace_of_not_included u _ _ h⟩
  simp [convertToBrowserFormat, hv, hk, hu]

theorem video_classification_witness :
    (RawAsset.mk (some "https://h/video/upload/v1/clip.mov") (some "video") (some "mov")).resource_type = some "video"
    ∧ (RawAsset.mk (some "https://h/video/upload/v1/clip.mov") (some "video") (some "mov")).format ≠ some "heic"
    ∧ (RawAsset.mk (some "https://h/video/upload/v1/clip.mov") (some "video") (some "mov")).secure_url = some "https://h/video/upload/v1/clip.mov"
    ∧ (convertToBrowserFormat (RawAsset.mk (some "https://h/video/upload/v1/clip.mov") (some "video") (some "mov"))
        = .ok ⟨some (jsReplace "https://h/video/upload/v1/clip.mov" videoSeg videoSegRepl),
               some "https://h/video/upload/v1/clip.mov", true, false⟩
      ∧ (jsIncludes "https://h/video/upload/v1/clip.mov" videoSeg = true →
          jsIncludes (jsReplace "https://h/video/upload/v1/clip.mov" videoSeg videoSegRepl) videoSegRepl = true)
      ∧ (jsIncludes "https://h/video/upload/v1/clip.mov" videoSeg = false →
          jsReplace "https://h/video/upload/v1/clip.mov" videoSeg videoSegRepl = "https://h/video/upload/v1/clip.mov")) :=
  ⟨rfl, by decide, rfl, video_classification _ _ rfl (by decide) rfl⟩

theorem image_classification_counterexample :
    (RawAsset.mk (some heicRawUrl) (some "image") (some "heic")).resource_type ≠ some "video"
    ∧ (RawAsset.mk (some heicRawUrl) (some "image") (some "heic")).format = some "heic"
    ∧ convertToBrowserFormat (RawAsset.mk (some heicRawUrl) (some "image") (some "heic"))
        = .ok ⟨some heicRawUrl, some heicRawUrl, false, false⟩
    ∧ jsIncludes heicRawUrl "f_auto,q_auto" = false :=
  ⟨by decide, rfl, by rfl, by decide⟩

/-- C3 (amended): a non-video asset with a present secure URL is
classified with `isVideo = false` and `originalUrl` unchanged; `url` is
the secure URL with `f_auto,q_auto` spliced after the first
`/image/upload/` segment whenever that segment is present (in particular
for heic/heif formats on the image delivery path), and equals
`originalUrl` when the segment is absent — even for heic/heif assets. -/
theorem image_classification (r : RawAsset) (u : String)
    (hk : r.resource_type ≠ some "video") (hu : r.secure_url = some u) :
    convertToBrowserFormat r
      = .ok ⟨some (jsReplace u imageSeg imageSegRepl), some u, false, false⟩
    ∧ (jsIncludes u imageSeg = true →
        jsIncludes (jsReplace u imageSeg imageSegRepl) imageSegRepl = true)
    ∧ (jsIncludes u imageSeg = false → jsReplace u imageSeg imageSegRepl = u) := by
  have hv : isHEICVideo r = false := by
    simp [isHEICVideo, hk]
  refine ⟨?_, fun h => jsIncludes_jsReplace u _ _ h,
    fun h => jsReplace_of_not_included u _ _ h⟩
  by_cases hh : (r.format == some "heic" || r.format == some "heif") = true
  · simp [convertToBrowserFormat, hv, hk, hu, hh]
  · by_cases hi : jsIncludes u imageSeg = true
    · simp [convertToBrowserFormat, hv, hk, hu, hh, hi]
    · have hif : jsIncludes u imageSeg = false := by
        cases hx : jsIncludes u imageSeg with
        | true => exact absurd hx hi
        | false => rfl
      simp [convertToBrowserFormat, hv, hk, hu, hh, hif,
        jsReplace_of_not_included u imageSeg imageSegRepl hif]

theorem image_classification_witness :
    (RawAsset.mk (some "https://h/image/upload/v1/a.heic") (some "image") (some "heic")).resource_type ≠ some "video"
    ∧ (RawAsset.mk (some "https://h/image/upload/v1/a.heic") (some "image") (some "heic")).secure_url = some "https://h/image/upload/v1/a.heic"
    ∧ (convertToBrowserFormat (RawAsset.mk (some "https://h/image/upload/v1/a.heic") (some "image") (some "heic"))
        = .ok ⟨some (jsReplace "https://h/image/upload/v1/a.heic" imageSeg imageSegRepl),
               some "https://h/image/upload/v1/a.heic", false, false⟩
      ∧ (jsIncludes "https://h/image/upload/v1/a.heic" imageSeg = true →
          jsIncludes (jsReplace "https://h/image/upload/v1/a.heic" imageSeg imageSegRepl) imageSegRepl = true)
      ∧ (jsIncludes "https://h/image/upload/v1/a.heic" imageSeg = false →
          jsReplace "https://h/image/upload/v1/a.heic" imageSeg imageSegRepl = "https://h/image/upload/v1/a.heic")) :=
  ⟨by decide, rfl, image_classification _ _ (by decide) rfl⟩

/-- A record whose secure delivery URL is missing and which is not a HEIC
live photo: every remaining branch of `convertToBrowserFormat` calls
`.replace` or `.includes` on `undefined` and throws, contradicting the
claim that classification is total and never throws. -/
theorem classifier_total_counterexample :
    classifySucceeds (RawAsset.mk none (some "video") (some "mp4")) = false := by rfl

/-- C4 (amended): classification is pure and total on every record whose
secure delivery URL is present — missing format or resource kind degrade
to the safest category — and on HEIC live-photo records even without a
URL; it is exactly the records lacking a secure URL in any other category
that make it throw. -/
theorem classifier_total (r : RawAsset)
    (h : isHEICVideo r = true ∨ r.secure_url ≠ none) :
    classifySucceeds r = true := by
  by_cases hv : isHEICVideo r = true
  · simp [classifySucceeds, convertToBrowserFormat, hv]
  · have hu : ∃ u, r.secure_url = some u := by
      rcases h with h | h
      · exact absurd h hv
      · cases hsu : r.secure_url with
        | none => exact absurd hsu h
        | some u => exact ⟨u, rfl⟩
    rcases hu with ⟨u, hu⟩
    have hvf : isHEICVideo r = false := by
      cases hx : isHEICVideo r with
      | true => exact absurd hx hv
      | false => rfl
    by_cases h2 : (r.resource_type == some "video") = true
    · simp [classifySucceeds, convertToBrowserFormat, hvf, h2, hu]
    · by_cases h3 : (r.format == some "heic" || r.format == some "heif") = true
      · simp [classifySucceeds, convertToBrowserFormat, hvf, h2, h3, hu]
      · by_cases h4 : jsIncludes u imageSeg = true
        · simp [classifySucceeds, convertToBrowserFormat, hvf, h2, h3, h4, hu]
        · simp [classifySucceeds, convertToBrowserFormat, hvf, h2, h3, h4, hu]

theorem classifier_total_witness :
    (isHEICVideo (RawAsset.mk (some "https://h/x") none none) = true
      ∨ (RawAsset.mk (some "https://h/x") none none).secure_url ≠ none)
    ∧ classifySucceeds (RawAsset.mk (some "https://h/x") none none) = true :=
  ⟨Or.inr (by decide), classifier_total _ (Or.inr (by decide))⟩

/-! ## Claim C5: cover selection -/

/-- C5: for a non-empty folder, the album's cover is `items[override]`
when the override exists and is in bounds for the folder's item count,
and `items[0]` when the override is absent or out of bounds. -/
theorem cover_selection (cov : List (String × Nat)) (k : String)
    (items : List NormalizedItem) (hne : items ≠ []) :
    (cov.lookup k = none → (mkAlbum cov k items).coverImage = items.get? 0)
    ∧ (∀ n, cov.lookup k = some n → n < items.length →
        (mkAlbum cov k items).coverImage = items.get? n)
    ∧ (∀ n, cov.lookup k = some n → items.length ≤ n →
        (mkAlbum cov k items).coverImage = items.get? 0) := by
  refine ⟨?_, ?_, ?_⟩
  · intro hl
    simp only [mkAlbum, hl, Option.getD_none]
    cases hx : items.get? 0 <;> simp [hx]
  · intro n hl hlt
    simp only [mkAlbum, hl, Option.getD_some]
    cases hx : items.get? n with
    | none =>
      exfalso
      have := List.get?_eq_none.mp hx
      omega
    | some it => simp [hx]
  · intro n hl hge
    simp only [mkAlbum, hl, Option.getD_some]
    cases hx : items.get? n with
    | some it =>
      exfalso
      have h2 := List.get?_eq_none.mpr hge
      rw [hx] at h2
      cases h2
    | none => simp [hx]

theorem cover_selection_witness :
    demoItems ≠ []
    ∧ (mkAlbum [("F", 2)] "F" demoItems).coverImage = demoItems.get? 2
    ∧ (mkAlbum [("F", 5)] "F" demoItems).coverImage = demoItems.get? 0 :=
  ⟨by decide,
   (cover_selection [("F", 2)] "F" demoItems (by decide)).2.1 2 (by decide) (by decide),
   (cover_selection [("F", 5)] "F" demoItems (by decide)).2.2 5 (by decide) (by decide)⟩

/-! ## Sorting lemmas (claim C6) -/

theorem charListLt_asymm : ∀ x y : List Char,
    charListLt x y = true → charListLt y x = false
  | [], [], h => by simp [charListLt] at h
  | [], _ :: _, _ => by simp [charListLt]
  | _ :: _, [], h => by simp [charListLt] at h
  | c :: cs, d :: ds, h => by
    simp only [charListLt, Bool.or_eq_true, Bool.and_eq_true, decide_eq_true_eq] at h
    rcases h with hcd | ⟨hce, hrec⟩
    · have h1 : ¬ d < c := lt_asymm hcd
      have h2 : ¬ d = c := fun he => absurd he.symm (ne_of_lt hcd)
      simp [charListLt, h1, h2]
    · subst hce
      have h1 : ¬ c < c := lt_irrefl c
      have hrec2 := charListLt_asymm cs ds hrec
      simp [charListLt, h1, hrec2]

theorem titleLt_asymm (a b : String) (h : titleLt a b = true) : titleLt b a = false := by
  simpa [titleLt] using charListLt_asymm a.data b.data (by simpa [titleLt] using h)

theorem sortedDescBool_tail (a : Album) (l : List Album)
    (h : sortedDescBool (a :: l) = true) : sortedDescBool l = true := by
  cases l with
  | nil => rfl
  | cons b bs =>
    simp only [sortedDescBool, Bool.and_eq_true] at h
    exact h.2

theorem insertAlbumDesc_sorted (a : Album) (l : List Album)
    (h : sortedDescBool l = true) :
    sortedDescBool (insertAlbumDesc a l) = true := by
  induction l with
  | nil => simp [insertAlbumDesc, sortedDescBool]
  | cons b bs ih =>
    by_cases hab : titleLt a.title b.title = true
    · have hins := ih (sortedDescBool_tail b bs h)
      have hba : titleLt b.title a.title = false := titleLt_asymm _ _ hab
      cases hbs : bs with
      | nil =>
        simp [insertAlbumDesc, hab, sortedDescBool, hba]
      | cons c cs =>
        subst hbs
        have hbc : titleLt b.title c.title = false := by
          have hh := h
          simp only [sortedDescBool, Bool.and_eq_true, Bool.not_eq_true'] at hh
          exact hh.1
        by_cases hac : titleLt a.title c.title = true
        · have hx : insertAlbumDesc a (c :: cs) = c :: insertAlbumDesc a cs := by
            simp [insertAlbumDesc, hac]
          have hy : insertAlbumDesc a (b :: c :: cs)
              = b :: insertAlbumDesc a (c :: cs) := by
            simp [insertAlbumDesc, hab]
          rw [hy, hx]
          have hins2 : sortedDescBool (c :: insertAlbumDesc a cs) = true := by
            rw [← hx]; exact hins
          simp only [sortedDescBool, Bool.and_eq_true, Bool.not_eq_true']
          exact ⟨hbc, hins2⟩
        · have hacf : titleLt a.title c.title = false := by
            cases hx : titleLt a.title c.title with
            | true => exact absurd hx hac
            | false => rfl
          have hx : insertAlbumDesc a (c :: cs) = a :: c :: cs := by
            simp [insertAlbumDesc, hacf]
          have hy : insertAlbumDesc a (b :: c :: cs)
              = b :: insertAlbumDesc a (c :: cs) := by
            simp [insertAlbumDesc, hab]
          rw [hy, hx]
          have hins2 : sortedDescBool (a :: c :: cs) = true := by
            rw [← hx]; exact hins
          simp only [sortedDescBool, Bool.and_eq_true, Bool.not_eq_true']
          refine ⟨hba, ?_⟩
          simpa [sortedDescBool] using hins2
    · have habf : titleLt a.title b.title = false := by
        cases hx : titleLt a.title b.title with
        | true => exact absurd hx hab
        | false => rfl
      have hx : insertAlbumDesc a (b :: bs) = a :: b :: bs := by
        simp [insertAlbumDesc, habf]
      rw [hx]
      simp only [sortedDescBool, Bool.and_eq_true, Bool.not_eq_true']
      exact ⟨habf, h⟩

theorem sortAlbumsDesc_sorted (l : List Album) :
    sortedDescBool (sortAlbumsDesc l) = true := by
  induction l with
  | nil => rfl
  | cons a rest ih => exact insertAlbumDesc_sorted a _ ih

theorem insertAlbumDesc_perm (a : Album) (l : List Album) :
    (insertAlbumDesc a l).Perm (a :: l) := by
  induction l with
  | nil => simp [insertAlbumDesc]
  | cons b bs ih =>
    by_cases hab : titleLt a.title b.title = true
    · have hx : insertAlbumDesc a (b :: bs) = b :: insertAlbumDesc a bs := by
        simp [insertAlbumDesc, hab]
      rw [hx]
      exact (ih.cons b).trans (List.Perm.swap a b bs)
    · have habf : titleLt a.title b.title = false := by
        cases hx : titleLt a.title b.title with
        | true => exact absurd hx hab
        | false => rfl
      simp [insertAlbumDesc, habf]

theorem sortAlbumsDesc_perm (l : List Album) : (sortAlbumsDesc l).Perm l := by
  induction l with
  | nil => simp [sortAlbumsDesc]
  | cons a rest ih =>
    exact ((insertAlbumDesc_perm a (sortAlbumsDesc rest)).trans (ih.cons a))

/-! ## Pipeline lemmas -/

theorem convertAll_length (rs : List RawAsset) :
    ∀ items, convertAll rs = .ok items → items.length = rs.length := by
  induction rs with
  | nil =>
    intro items h
    simp only [convertAll, Except.ok.injEq] at h
    subst h
    rfl
  | cons r rest ih =>
    intro items h
    simp only [convertAll] at h
    cases h1 : convertToBrowserFormat r with
    | error e => rw [h1] at h; cases h
    | ok item =>
      rw [h1] at h
      cases h2 : convertAll rest with
      | error e => rw [h2] at h; cases h
      | ok its =>
        rw [h2] at h
        simp only [Except.ok.injEq] at h
        subst h
        simp [ih its h2]

theorem convertAll_append (xs ys : List RawAsset) :
    ∀ ix iy, convertAll xs = .ok ix → convertAll ys = .ok iy →
      convertAll (xs ++ ys) = .ok (ix ++ iy) := by
  induction xs with
  | nil =>
    intro ix iy hx hy
    simp only [convertAll, Except.ok.injEq] at hx
    subst hx
    simpa using hy
  | cons x xs2 ih =>
    intro ix iy hx hy
    simp only [convertAll] at hx
    cases h1 : convertToBrowserFormat x with
    | error e => rw [h1] at hx; cases hx
    | ok item =>
      rw [h1] at hx
      cases h2 : convertAll xs2 with
      | error e => rw [h2] at hx; cases hx
      | ok its =>
        rw [h2] at hx
        simp only [Except.ok.injEq] at hx
        subst hx
        have h3 := ih its iy h2 hy
        simp only [List.cons_append, convertAll, h1, h3, List.append_eq]

/-- A successful pagination loop classifies exactly the records the
provider's pages carry, in provider order. -/
theorem fetchLoop_items (rest : List SearchPage) :
    ∀ first items n, fetchLoop first rest = .ok (items, n) →
      ∃ raws, collectPages first rest = .ok raws ∧ convertAll raws = .ok items := by
  induction rest with
  | nil =>
    intro first items n h
    cases first with
    | error e => cases h
    | ok rs =>
      simp only [fetchLoop] at h
      cases h1 : convertAll rs with
      | error e => rw [h1] at h; cases h
      | ok its =>
        rw [h1] at h
        simp only [Except.ok.injEq, Prod.mk.injEq] at h
        exact ⟨rs, rfl, by rw [h1, h.1]⟩
  | cons p ps ih =>
    intro first items n h
    cases first with
    | error e => cases h
    | ok rs =>
      simp only [fetchLoop] at h
      cases h1 : convertAll rs with
      | error e => rw [h1] at h; cases h
      | ok its =>
        rw [h1] at h
        cases h2 : fetchLoop p ps with
        | error e => rw [h2] at h; cases h
        | ok acc =>
          rw [h2] at h
          simp only [Except.ok.injEq, Prod.mk.injEq] at h
          rcases ih p acc.1 acc.2 (by rw [h2]) with ⟨raws2, hc, hcv⟩
          refine ⟨rs ++ raws2, ?_, ?_⟩
          · simp only [collectPages, hc]
          · rw [← h.1]
            exact convertAll_append rs raws2 its acc.1 h1 hcv

theorem folderItems_length (fd : FolderFetchData) (its : List NormalizedItem)
    (raws : List RawAsset) (h1 : folderItems fd = .ok its)
    (h2 : folderRawAssets fd = .ok raws) : its.length = raws.length := by
  unfold folderItems at h1
  cases hf : fetchLoop fd.firstPage fd.restPages with
  | error e => rw [hf] at h1; cases h1
  | ok p =>
    rw [hf] at h1
    simp only [Except.ok.injEq] at h1
    rcases fetchLoop_items fd.restPages fd.firstPage p.1 p.2 (by rw [hf]) with ⟨raws2, hc, hcv⟩
    unfold folderRawAssets at h2
    rw [hc] at h2
    simp only [Except.ok.injEq] at h2
    subst h2
    rw [← h1]
    exact convertAll_length raws2 p.1 hcv

theorem objInsert_fresh (acc : List (String × List NormalizedItem))
    (k : String) (v : List NormalizedItem) (h : k ∉ acc.map Prod.fst) :
    objInsert acc k v = acc ++ [(k, v)] := by
  induction acc with
  | nil => rfl
  | cons kv rest ih =>
    have hk : kv.1 ≠ k := by
      intro he
      exact h (by simp [he])
    have hr : k ∉ rest.map Prod.fst := by
      intro hm
      exact h (by simp [hm])
    cases kv with
    | mk k2 v2 =>
      simp only [objInsert]
      rw [if_neg hk]
      simp [ih hr]

theorem folderItemsAll_length (fds : List FolderFetchData) :
    ∀ fits, folderItemsAll fds = .ok fits → fits.length = fds.length := by
  induction fds with
  | nil =>
    intro fits h
    simp only [folderItemsAll, Except.ok.injEq] at h
    subst h
    rfl
  | cons fd rest ih =>
    intro fits h
    simp only [folderItemsAll] at h
    cases h1 : folderItems fd with
    | error e => rw [h1] at h; cases h
    | ok its =>
      rw [h1] at h
      cases h2 : folderItemsAll rest with
      | error e => rw [h2] at h; cases h
      | ok rits =>
        rw [h2] at h
        simp only [Except.ok.injEq] at h
        subst h
        simp [ih rits h2]

theorem folderItemsAll_get (fds : List FolderFetchData) :
    ∀ fits i fd its, folderItemsAll fds = .ok fits →
      fds.get? i = some fd → fits.get? i = some its →
      folderItems fd = .ok its := by
  induction fds with
  | nil =>
    intro fits i fd its _ hfd _
    cases hfd
  | cons f rest ih =>
    intro fits i fd its h hfd hits
    simp only [folderItemsAll] at h
    cases h1 : folderItems f with
    | error e => rw [h1] at h; cases h
    | ok fi =>
      rw [h1] at h
      cases h2 : folderItemsAll rest with
      | error e => rw [h2] at h; cases h
      | ok rits =>
        rw [h2] at h
        simp only [Except.ok.injEq] at h
        subst h
        cases i with
        | zero =>
          simp only [List.get?] at hfd hits
          cases hfd
          cases hits
          exact h1
        | succ j =>
          simp only [List.get?] at hfd hits
          exact ih rits j fd its h2 hfd hits

/-- The per-folder loop of `fetchAllImages`, characterized: with distinct
folder names and all fetches succeeding, `albumsByFolder` is exactly the
name/items pairs of the non-empty folders in listing order, and
`allImages` is the concatenation of every folder's items. -/
theorem runFoldersAux_ok (fds : List FolderFetchData) :
    ∀ fits acc all, folderItemsAll fds = .ok fits →
      (∀ fd ∈ fds, fd.name ∉ acc.map Prod.fst) →
      (fds.map (fun f => f.name)).Nodup →
      runFoldersAux acc all fds = .ok (acc ++ pairsOf fds fits, all ++ fits.flatten) := by
  induction fds with
  | nil =>
    intro fits acc all hfit _ _
    simp only [folderItemsAll, Except.ok.injEq] at hfit
    subst hfit
    simp [runFoldersAux, pairsOf]
  | cons fd rest ih =>
    intro fits acc all hfit hfresh hnd
    simp only [folderItemsAll] at hfit
    cases h1 : folderItems fd with
    | error e => rw [h1] at hfit; cases hfit
    | ok its =>
      rw [h1] at hfit
      cases h2 : folderItemsAll rest with
      | error e => rw [h2] at hfit; cases hfit
      | ok rits =>
        rw [h2] at hfit
        simp only [Except.ok.injEq] at hfit
        subst hfit
        have hloop : ∃ p, fetchLoop fd.firstPage fd.restPages = .ok p ∧ p.1 = its := by
          unfold folderItems at h1
          cases hf : fetchLoop fd.firstPage fd.restPages with
          | error e => rw [hf] at h1; cases h1
          | ok p =>
            rw [hf] at h1
            simp only [Except.ok.injEq] at h1
            exact ⟨p, rfl, h1⟩
        rcases hloop with ⟨p, hf, hp⟩
        subst hp
        simp only [runFoldersAux, hf]
        have hndr : (rest.map (fun f => f.name)).Nodup := by
          rw [List.map_cons, List.nodup_cons] at hnd
          exact hnd.2
        have hhead : fd.name ∉ rest.map (fun f => f.name) := by
          rw [List.map_cons, List.nodup_cons] at hnd
          exact hnd.1
        by_cases he : p.1.isEmpty = true
        · have hempty : p.1 = [] := List.isEmpty_iff.mp he
          rw [if_pos he]
          have := ih rits acc (all ++ p.1) h2
            (fun f2 hm => hfresh f2 (List.mem_cons_of_mem fd hm)) hndr
          rw [this]
          simp [pairsOf, hempty, List.append_assoc]
        · have hne : p.1.isEmpty = false := by
            cases hx : p.1.isEmpty with
            | true => exact absurd hx he
            | false => rfl
          rw [if_neg (by rw [hne]; exact Bool.false_ne_true)]
          have hins : objInsert acc fd.name p.1 = acc ++ [(fd.name, p.1)] :=
            objInsert_fresh acc fd.name p.1 (hfresh fd (List.mem_cons_self fd rest))
          rw [hins]
          have hfresh2 : ∀ f2 ∈ rest, f2.name ∉ (acc ++ [(fd.name, p.1)]).map Prod.fst := by
            intro f2 hm
            rw [List.map_append]
            intro hmem
            rcases List.mem_append.mp hmem with hx | hx
            · exact hfresh f2 (List.mem_cons_of_mem fd hm) hx
            · simp only [List.map_cons, List.map_nil, List.mem_singleton] at hx
              exact hhead (hx ▸ List.mem_map_of_mem (fun f => f.name) hm)
          have := ih rits (acc ++ [(fd.name, p.1)]) (all ++ p.1) h2 hfresh2 hndr
          rw [this]
          simp [pairsOf, hne, List.append_assoc]

theorem runFoldersAux_all (fds : List FolderFetchData) :
    ∀ fits acc all res, folderItemsAll fds = .ok fits →
      runFoldersAux acc all fds = .ok res →
      res.2 = all ++ fits.flatten := by
  induction fds with
  | nil =>
    intro fits acc all res hfit hrun
    simp only [folderItemsAll, Except.ok.injEq] at hfit
    subst hfit
    simp only [runFoldersAux, Except.ok.injEq] at hrun
    subst hrun
    simp
  | cons fd rest ih =>
    intro fits acc all res hfit hrun
    simp only [folderItemsAll] at hfit
    cases h1 : folderItems fd with
    | error e => rw [h1] at hfit; cases hfit
    | ok its =>
      rw [h1] at hfit
      cases h2 : folderItemsAll rest with
      | error e => rw [h2] at hfit; cases hfit
      | ok rits =>
        rw [h2] at hfit
        simp only [Except.ok.injEq] at hfit
        subst hfit
        have hloop : ∃ p, fetchLoop fd.firstPage fd.restPages = .ok p ∧ p.1 = its := by
          unfold folderItems at h1
          cases hf : fetchLoop fd.firstPage fd.restPages with
          | error e => rw [hf] at h1; cases h1
          | ok p =>
            rw [hf] at h1
            simp only [Except.ok.injEq] at h1
            exact ⟨p, rfl, h1⟩
        rcases hloop with ⟨p, hf, hp⟩
        simp only [runFoldersAux, hf] at hrun
        have := ih rits _ (all ++ p.1) res h2 hrun
        rw [this, hp]
        simp [List.append_assoc]

theorem pairsOf_keys (fds : List FolderFetchData) :
    ∀ fits p, p ∈ pairsOf fds fits → p.1 ∈ fds.map (fun f => f.name) := by
  induction fds with
  | nil =>
    intro fits p hp
    simp [pairsOf] at hp
  | cons fd rest ih =>
    intro fits p hp
    cases fits with
    | nil => simp [pairsOf] at hp
    | cons t ts =>
      by_cases he : t.isEmpty = true
      · simp only [pairsOf, if_pos he] at hp
        exact List.mem_cons_of_mem _ (ih ts p hp)
      · simp only [pairsOf, if_neg he] at hp
        rcases List.mem_cons.mp hp with hp | hp
        · subst hp
          simp
        · exact List.mem_cons_of_mem _ (ih ts p hp)

theorem pairsOf_values (fds : List FolderFetchData) :
    ∀ fits p, p ∈ pairsOf fds fits → p.2 ≠ [] := by
  induction fds with
  | nil =>
    intro fits p hp
    simp [pairsOf] at hp
  | cons fd rest ih =>
    intro fits p hp
    cases fits with
    | nil => simp [pairsOf] at hp
    | cons t ts =>
      by_cases he : t.isEmpty = true
      · simp only [pairsOf, if_pos he] at hp
        exact ih ts p hp
      · simp only [pairsOf, if_neg he] at hp
        rcases List.mem_cons.mp hp with hp | hp
        · subst hp
          simpa [List.isEmpty_iff] using he
        · exact ih ts p hp

theorem pairsOf_countP_zero (fds : List FolderFetchData)
    (fits : List (List NormalizedItem)) (k : String)
    (hk : k ∉ fds.map (fun f => f.name)) :
    (pairsOf fds fits).countP (fun p => p.1 == k) = 0 := by
  rw [List.countP_eq_zero]
  intro p hp hpred
  have hmem := pairsOf_keys fds fits p hp
  have hpk : p.1 = k := by simpa using hpred
  exact hk (hpk ▸ hmem)

theorem pairsOf_length (fds : List FolderFetchData) :
    ∀ fits, fits.length = fds.length →
      (pairsOf fds fits).length = (fits.filter (fun l => !l.isEmpty)).length := by
  induction fds with
  | nil =>
    intro fits h
    cases fits with
    | nil => rfl
    | cons t ts => simp at h
  | cons f fs ih =>
    intro fits h
    cases fits with
    | nil => simp at h
    | cons t ts =>
      have h2 : ts.length = fs.length := by simpa using h
      rw [List.filter_cons]
      by_cases he : t.isEmpty = true
      · simp [pairsOf, he, ih ts h2]
      · simp [pairsOf, he, ih ts h2]

theorem pairsOf_countP_key (fds : List FolderFetchData) :
    ∀ fits i fd its, fits.length = fds.length →
      (fds.map (fun f => f.name)).Nodup →
      fds.get? i = some fd → fits.get? i = some its →
      (pairsOf fds fits).countP (fun p => p.1 == fd.name)
        = (if its.isEmpty then 0 else 1) := by
  induction fds with
  | nil =>
    intro fits i fd its _ _ hfd _
    cases hfd
  | cons f fs ih =>
    intro fits i fd its hlen hnd hfd hits
    cases fits with
    | nil => simp at hlen
    | cons t ts =>
      have hlen2 : ts.length = fs.length := by simpa using hlen
      have hnd2 : (fs.map (fun f2 => f2.name)).Nodup := by
        rw [List.map_cons, List.nodup_cons] at hnd
        exact hnd.2
      have hhead : f.name ∉ fs.map (fun f2 => f2.name) := by
        rw [List.map_cons, List.nodup_cons] at hnd
        exact hnd.1
      cases i with
      | zero =>
        simp only [List.get?] at hfd hits
        cases hfd
        cases hits
        by_cases he : its.isEmpty = true
        · rw [if_pos he]
          simp only [pairsOf, if_pos he]
          exact pairsOf_countP_zero fs ts f.name hhead
        · rw [if_neg he]
          simp only [pairsOf, if_neg he]
          rw [List.countP_cons]
          have hz := pairsOf_countP_zero fs ts f.name hhead
          simp [hz]
      | succ j =>
        simp only [List.get?] at hfd hits
        have hcount := ih ts j fd its hlen2 hnd2 hfd hits
        have hkne : f.name ≠ fd.name := by
          intro he
          have hm : fd.name ∈ fs.map (fun f2 => f2.name) :=
            List.mem_map_of_mem (fun f2 => f2.name) (List.get?_mem hfd)
          exact hhead (he ▸ hm)
        by_cases he : t.isEmpty = true
        · simp only [pairsOf, if_pos he]
          exact hcount
        · simp only [pairsOf, if_neg he]
          rw [List.countP_cons]
          simp [hkne, hcount]

theorem pairsOf_content (fds : List FolderFetchData) :
    ∀ fits i fd its, fits.length = fds.length →
      (fds.map (fun f => f.name)).Nodup →
      fds.get? i = some fd → fits.get? i = some its →
      ∀ p ∈ pairsOf fds fits, p.1 = fd.name → p.2 = its := by
  induction fds with
  | nil =>
    intro fits i fd its _ _ hfd _
    cases hfd
  | cons f fs ih =>
    intro fits i fd its hlen hnd hfd hits
    cases fits with
    | nil => simp at hlen
    | cons t ts =>
      have hlen2 : ts.length = fs.length := by simpa using hlen
      have hnd2 : (fs.map (fun f2 => f2.name)).Nodup := by
        rw [List.map_cons, List.nodup_cons] at hnd
        exact hnd.2
      have hhead : f.name ∉ fs.map (fun f2 => f2.name) := by
        rw [List.map_cons, List.nodup_cons] at hnd
        exact hnd.1
      cases i with
      | zero =>
        simp only [List.get?] at hfd hits
        cases hfd
        cases hits
        intro p hp hpk
        by_cases he : its.isEmpty = true
        · simp only [pairsOf, if_pos he] at hp
          exact absurd (hpk ▸ pairsOf_keys fs ts p hp) hhead
        · simp only [pairsOf, if_neg he] at hp
          rcases List.mem_cons.mp hp with hp | hp
          · rw [hp]
          · exact absurd (hpk ▸ pairsOf_keys fs ts p hp) hhead
      | succ j =>
        simp only [List.get?] at hfd hits
        have hkne : f.name ≠ fd.name := by
          intro he
          have hm : fd.name ∈ fs.map (fun f2 => f2.name) :=
            List.mem_map_of_mem (fun f2 => f2.name) (List.get?_mem hfd)
          exact hhead (he ▸ hm)
        intro p hp hpk
        by_cases he : t.isEmpty = true
        · simp only [pairsOf, if_pos he] at hp
          exact ih ts j fd its hlen2 hnd2 hfd hits p hp hpk
        · simp only [pairsOf, if_neg he] at hp
          rcases List.mem_cons.mp hp with hp | hp
          · exfalso
            rw [hp] at hpk
            exact hkne hpk
          · exact ih ts j fd its hlen2 hnd2 hfd hits p hp hpk

/-- Decompose a successful run into its folder phase, root phase and
output shape. -/
theorem model_ok_parts (cov : List (String × Nat)) (pd : ProviderData)
    (out : OutputDoc) (h : fetchAllImagesModel cov pd = .ok out) :
    ∃ fr rp, runFoldersAux [] [] pd.folderList = .ok fr
      ∧ fetchLoop pd.rootFirst pd.rootRest = .ok rp
      ∧ out = ⟨(fr.2 ++ rp.1).length, fr.2 ++ rp.1,
               sortAlbumsDesc (fr.1.map (fun p => mkAlbum cov p.1 p.2))⟩ := by
  unfold fetchAllImagesModel at h
  cases h1 : runFoldersAux [] [] pd.folderList with
  | error e => rw [h1] at h; cases h
  | ok fr =>
    rw [h1] at h
    cases h2 : fetchLoop pd.rootFirst pd.rootRest with
    | error e => rw [h2] at h; cases h
    | ok rp =>
      rw [h2] at h
      simp only [Except.ok.injEq] at h
      exact ⟨fr, rp, rfl, rfl, h.symm⟩

/-! ## Claim C6: album sort order -/

/-- C6: on every successful run the albums array is in descending ordinal
(codepoint-lexicographic, not numeric-aware) title order, and the titles
`"2023 April"`, `"2024 April"`, `"2022 April"` sort to
`["2024 April", "2023 April", "2022 April"]`. -/
theorem albums_sorted_desc :
    (∀ (cov : List (String × Nat)) (pd : ProviderData) (out : OutputDoc),
        fetchAllImagesModel cov pd = .ok out → sortedDescBool out.albums = true)
    ∧ (sortAlbumsDesc
        [mkAlbum [] "2023 April" demoIts, mkAlbum [] "2024 April" demoIts,
         mkAlbum [] "2022 April" demoIts]).map Album.title
      = ["2024 April", "2023 April", "2022 April"] := by
  constructor
  · intro cov pd out h
    rcases model_ok_parts cov pd out h with ⟨fr, rp, _, _, hout⟩
    rw [hout]
    exact sortAlbumsDesc_sorted _
  · rfl

theorem albums_sorted_desc_witness :
    sortedDescBool (outOf (fetchAllImagesModel [] pdDemo)).albums = true :=
  albums_sorted_desc.1 [] pdDemo (outOf (fetchAllImagesModel [] pdDemo)) rfl

/-! ## Claim C7: album materialization -/

/-- C7: on a successful run with distinct folder names, the albums array
has exactly one entry per folder with a non-empty fetched item sequence
(none for an empty folder), that entry's images are exactly the folder's
items with length equal to the folder's raw asset count, every album
comes from a listed folder, and the unfiled bucket never contributes an
album. -/
theorem album_materialization (cov : List (String × Nat)) (pd : ProviderData)
    (out : OutputDoc) (fits : List (List NormalizedItem)) (i : Nat)
    (fd : FolderFetchData) (its : List NormalizedItem) (raws : List RawAsset)
    (hnd : (pd.folderList.map (fun f => f.name)).Nodup)
    (hrun : fetchAllImagesModel cov pd = .ok out)
    (hfit : folderItemsAll pd.folderList = .ok fits)
    (hfd : pd.folderList.get? i = some fd)
    (hits : fits.get? i = some its)
    (hraw : folderRawAssets fd = .ok raws) :
    out.albums.length = (fits.filter (fun l => !l.isEmpty)).length
    ∧ out.albums.countP (fun a => a.folder == fd.name) = (if its.isEmpty then 0 else 1)
    ∧ out.albums.all (fun a => decide (a.folder ∈ pd.folderList.map (fun f => f.name))) = true
    ∧ out.albums.all (fun a => decide (a.folder = fd.name → a.images = its)) = true
    ∧ its.length = raws.length := by
  rcases model_ok_parts cov pd out hrun with ⟨fr, rp, h1, h2, hout⟩
  have hfr := runFoldersAux_ok pd.folderList fits [] [] hfit (by intro fd2 _; simp) hnd
  rw [h1] at hfr
  simp only [Except.ok.injEq, List.nil_append] at hfr
  have hfr1 : fr.1 = pairsOf pd.folderList fits := by rw [hfr]
  have halbums : out.albums
      = sortAlbumsDesc ((pairsOf pd.folderList fits).map (fun p => mkAlbum cov p.1 p.2)) := by
    rw [hout, ← hfr1]
  have hperm : out.albums.Perm
      ((pairsOf pd.folderList fits).map (fun p => mkAlbum cov p.1 p.2)) := by
    rw [halbums]
    exact sortAlbumsDesc_perm _
  have hlen := folderItemsAll_length pd.folderList fits hfit
  refine ⟨?_, ?_, ?_, ?_, ?_⟩
  · rw [hperm.length_eq, List.length_map]
    exact pairsOf_length pd.folderList fits hlen
  · rw [hperm.countP_eq, List.countP_map]
    have hcomp : ((fun a => a.folder == fd.name) ∘ fun p : String × List NormalizedItem =>
        mkAlbum cov p.1 p.2) = fun p : String × List NormalizedItem => p.1 == fd.name := rfl
    rw [hcomp]
    exact pairsOf_countP_key pd.folderList fits i fd its hlen hnd hfd hits
  · rw [List.all_eq_true]
    intro a ha
    rcases List.mem_map.mp (hperm.mem_iff.mp ha) with ⟨p, hp, hpa⟩
    simp only [decide_eq_true_eq]
    rw [← hpa]
    exact pairsOf_keys pd.folderList fits p hp
  · rw [List.all_eq_true]
    intro a ha
    rcases List.mem_map.mp (hperm.mem_iff.mp ha) with ⟨p, hp, hpa⟩
    simp only [decide_eq_true_eq]
    intro hfold
    have hp1 : p.1 = fd.name := by rw [← hpa] at hfold; exact hfold
    have hcontent := pairsOf_content pd.folderList fits i fd its hlen hnd hfd hits p hp hp1
    rw [← hpa]
    exact hcontent
  · exact folderItems_length fd its raws
      (folderItemsAll_get pd.folderList fits i fd its hfit hfd hits) hraw

theorem album_materialization_witness :
    (outOf (fetchAllImagesModel [] pdDemo)).albums.length
        = (demoFits.filter (fun l => !l.isEmpty)).length
    ∧ (outOf (fetchAllImagesModel [] pdDemo)).albums.countP
        (fun a => a.folder == demoFd.name) = (if demoIts.isEmpty then 0 else 1)
    ∧ (outOf (fetchAllImagesModel [] pdDemo)).albums.all
        (fun a => decide (a.folder ∈ pdDemo.folderList.map (fun f => f.name))) = true
    ∧ (outOf (fetchAllImagesModel [] pdDemo)).albums.all
        (fun a => decide (a.folder = demoFd.name → a.images = demoIts)) = true
    ∧ demoIts.length = [rawImg "a.jpg"].length :=
  album_materialization [] pdDemo (outOf (fetchAllImagesModel [] pdDemo))
    demoFits 0 demoFd demoIts [rawImg "a.jpg"] (by decide) rfl rfl rfl rfl rfl

/-! ## Claim C8: pagination request count -/

/-- C8: a fetch against a provider answering with N pages (none above the
500-item cap) issues exactly N search requests: the loop runs once per
response, threading the continuation cursor (the remaining-response chain)
into the next request, and stops at the response with no cursor. -/
theorem fetchLoop_ok_nil (rs : List RawAsset) :
    fetchLoop (.ok rs) []
      = match convertAll rs with
        | .error e => .error e
        | .ok items => .ok (items, 1) := by
  rw [fetchLoop]

theorem fetchLoop_ok_cons (rs : List RawAsset) (p : SearchPage) (ps : List SearchPage) :
    fetchLoop (.ok rs) (p :: ps)
      = match convertAll rs with
        | .error e => .error e
        | .ok items =>
          match fetchLoop p ps with
          | .error e => .error e
          | .ok acc => .ok (items ++ acc.1, acc.2 + 1) := by
  rw [fetchLoop]

theorem pagination_request_count (rest : List (List RawAsset)) :
    ∀ first, (∀ p ∈ first :: rest, p.length ≤ 500) →
      ∀ items n, fetchLoop (.ok first) (rest.map Except.ok) = .ok (items, n) →
        n = (first :: rest).length := by
  induction rest with
  | nil =>
    intro first _ items n h
    rw [List.map_nil, fetchLoop_ok_nil] at h
    cases h1 : convertAll first with
    | error e => rw [h1] at h; cases h
    | ok its =>
      rw [h1] at h
      simp only [Except.ok.injEq, Prod.mk.injEq] at h
      simp [← h.2]
  | cons q qs ih =>
    intro first hcap items n h
    rw [List.map_cons, fetchLoop_ok_cons] at h
    cases h1 : convertAll first with
    | error e => rw [h1] at h; cases h
    | ok its =>
      rw [h1] at h
      cases h2 : fetchLoop (.ok q) (qs.map Except.ok) with
      | error e => rw [h2] at h; cases h
      | ok acc =>
        rw [h2] at h
        simp only [Except.ok.injEq, Prod.mk.injEq] at h
        have hn := ih q (fun p hp => hcap p (List.mem_cons_of_mem first hp))
          acc.1 acc.2 (by rw [h2])
        rw [← h.2, hn]
        simp

theorem pagination_request_count_witness :
    (∀ p ∈ ([rawImg "a.jpg"] : List RawAsset) :: [[rawImg "b.jpg"]], p.length ≤ 500)
    ∧ loopCountOf (fetchLoop (.ok [rawImg "a.jpg"]) ([[rawImg "b.jpg"]].map Except.ok))
      = (([rawImg "a.jpg"] : List RawAsset) :: [[rawImg "b.jpg"]]).length :=
  ⟨by decide,
   pagination_request_count [[rawImg "b.jpg"]] [rawImg "a.jpg"] (by decide)
     (loopItemsOf (fetchLoop (.ok [rawImg "a.jpg"]) ([[rawImg "b.jpg"]].map Except.ok)))
     (loopCountOf (fetchLoop (.ok [rawImg "a.jpg"]) ([[rawImg "b.jpg"]].map Except.ok)))
     rfl⟩

/-! ## Claim C9: failure handling -/

/-- C9: whenever the folder listing or any search page request fails, the
run aborts with exit status 1, the output file is never written, the raw
error is emitted, and when the message mentions `api_key` the credential
remediation guidance is additionally emitted. -/
theorem failure_reporting (cov : List (String × Nat))
    (inp : Except String ProviderData) (e : String)
    (h : runModel cov inp = .error e) :
    runScript cov inp
      = [Effect.emitRawError e]
        ++ (if jsIncludes e "api_key" then [Effect.emitGuidance] else [])
        ++ [Effect.exitProcess 1]
    ∧ (runScript cov inp).all (fun eff => !(isWriteEffect eff)) = true
    ∧ Effect.exitProcess 1 ∈ runScript cov inp := by
  have hs : runScript cov inp
      = [Effect.emitRawError e]
        ++ (if jsIncludes e "api_key" then [Effect.emitGuidance] else [])
        ++ [Effect.exitProcess 1] := by
    unfold runScript
    rw [h]
  refine ⟨hs, ?_, ?_⟩
  · rw [hs]
    by_cases hg : jsIncludes e "api_key" = true
    · simp [hg, isWriteEffect]
    · simp [hg, isWriteEffect]
  · rw [hs]
    by_cases hg : jsIncludes e "api_key" = true
    · simp [hg]
    · simp [hg]

theorem failure_reporting_witness :
    runScript [] (.error "Unknown api_key 123")
      = [Effect.emitRawError "Unknown api_key 123"]
        ++ (if jsIncludes "Unknown api_key 123" "api_key" then [Effect.emitGuidance] else [])
        ++ [Effect.exitProcess 1]
    ∧ (runScript [] (.error "Unknown api_key 123")).all
        (fun eff => !(isWriteEffect eff)) = true
    ∧ Effect.exitProcess 1 ∈ runScript [] (.error "Unknown api_key 123") :=
  failure_reporting [] (.error "Unknown api_key 123") "Unknown api_key 123" rfl

/-! ## Claim C10: carousel concatenation -/

/-- C10: on every successful run, `carouselImages` is the concatenation of
the per-folder item sequences in listing order followed by the unfiled
items, and `totalImages` is its length. -/
theorem carousel_concatenation (cov : List (String × Nat)) (pd : ProviderData)
    (out : OutputDoc) (fits : List (List NormalizedItem)) (rits : List NormalizedItem)
    (hrun : fetchAllImagesModel cov pd = .ok out)
    (hfit : folderItemsAll pd.folderList = .ok fits)
    (hroot : rootItems pd = .ok rits) :
    out.carouselImages = fits.flatten ++ rits
    ∧ out.totalImages = out.carouselImages.length := by
  rcases model_ok_parts cov pd out hrun with ⟨fr, rp, h1, h2, hout⟩
  have hall := runFoldersAux_all pd.folderList fits [] [] fr hfit h1
  have hrp : rp.1 = rits := by
    unfold rootItems at hroot
    rw [h2] at hroot
    simp only [Except.ok.injEq] at hroot
    exact hroot
  constructor
  · rw [hout]
    show fr.2 ++ rp.1 = fits.flatten ++ rits
    rw [hall, hrp]
    simp
  · rw [hout]

theorem carousel_concatenation_witness :
    (outOf (fetchAllImagesModel [] pdDemo)).carouselImages = demoFits.flatten ++ demoRits
    ∧ (outOf (fetchAllImagesModel [] pdDemo)).totalImages
      = (outOf (fetchAllImagesModel [] pdDemo)).carouselImages.length :=
  carousel_concatenation [] pdDemo (outOf (fetchAllImagesModel [] pdDemo))
    demoFits demoRits rfl rfl rfl
